import Mathlib

/-!
Verification of the Delta-K cipher encoder repository.

The repository is C++: `Delta_K.hpp` plus its implementation file (static
encoder `encrypt`, keyed-additive encoder `encrypt(plaintext, key)`, decoder
`decrypt`, helpers `abcPosition`, `keyValidation`, `isGlyph`, `glyphVal`,
`abcSearch`), and a standalone `cipher-encoder.cpp` (keyed-permutation
encoder with its own `encrypt`, `keyValidation`, `alphabetWithKey`,
`keyedCipherAlphabet`).

A C++ `std::string` is modelled as the list of its byte values, so the
three UTF-8 glyphs `▲ ▼ ◆` occupy three bytes each, exactly as the byte
oriented C++ code sees them.
-/

/-- A C++ `std::string`, modelled as the list of its byte values. -/
abbrev ByteStr := List Nat

/-- `std::toupper` in the default locale, on byte values: ASCII lowercase
letters are shifted down by 32, everything else is returned unchanged. -/
def cppToupper (c : Nat) : Nat := if 97 ≤ c ∧ c ≤ 122 then c - 32 else c

/-- `std::isalpha` in the default locale, on byte values: true exactly on
ASCII letters (65-90 and 97-122). -/
def cppIsalpha (c : Nat) : Bool := (65 ≤ c && c ≤ 90) || (97 ≤ c && c ≤ 122)

/-- `std::string::substr(pos, count)`: `none` models the
`std::out_of_range` exception raised when `pos > size()`; otherwise up to
`count` bytes starting at `pos` are returned. -/
def substr (s : ByteStr) (pos count : Nat) : Option ByteStr :=
  if pos ≤ s.length then some ((s.drop pos).take count) else none

/-- `abcPosition(char)`: 0-based alphabet position relative to capital A,
`toupper(abc) - 65` computed in `int` arithmetic.  Defined identically in
both the Delta_K implementation file and `cipher-encoder.cpp`. -/
def abcPosition (c : Nat) : Int := (cppToupper c : Int) - 65

namespace DeltaK

/-- `ALPHABET_LENGTH = 26` from `Delta_K.hpp`. -/
def ALPHABET_LENGTH : Nat := 26

/-- `BASE = 3` from `Delta_K.hpp`. -/
def BASE : Nat := 3

/-- `GLYPHS = {"▲", "▼", "◆"}` from `Delta_K.hpp`, as UTF-8 byte strings. -/
def GLYPHS : List ByteStr := [[226, 150, 178], [226, 150, 188], [226, 151, 134]]

/-- `TRIT_ALPHABET` from `Delta_K.hpp`: the 26 rows of three trits. -/
def TRIT_ALPHABET : List (List Nat) :=
  [[0, 0, 1], [0, 0, 2], [0, 1, 0], [0, 1, 1], [0, 1, 2],
   [0, 2, 0], [0, 2, 1], [0, 2, 2], [1, 0, 0], [1, 0, 1],
   [1, 0, 2], [1, 1, 0], [1, 1, 1], [1, 1, 2], [1, 2, 0],
   [1, 2, 1], [1, 2, 2], [2, 0, 0], [2, 0, 1], [2, 0, 2],
   [2, 1, 0], [2, 1, 1], [2, 1, 2], [2, 2, 0], [2, 2, 1],
   [2, 2, 2]]

/-- Modelled from the spec: the constant `GLYPH_SIZE` is used by `decrypt`
but declared in no file under `src/`.  The spec fixes the decoder's
per-glyph stride at 3 ("advance the scan position by 9 characters, 3 runs
of 3 glyph-characters"), the byte length of each UTF-8 glyph. -/
def GLYPH_SIZE : Nat := 3

/-- Row `i`, column `j` of `TRIT_ALPHABET`. -/
def tritAt (i j : Nat) : Nat := (TRIT_ALPHABET.getD i []).getD j 0

/-- The loop `for j < BASE: ciphertext += GLYPHS[TRIT_ALPHABET[v][j]]` of
the static `encrypt`: the three glyphs of letter index `v`. -/
def glyphRun (v : Int) : ByteStr :=
  ((TRIT_ALPHABET.getD v.toNat []).map (fun t => GLYPHS.getD t [])).flatten

/-- `encrypt(const std::string&)`: the static (unkeyed) encoder.  Letters
become their three glyphs, a space becomes `/` (byte 47), anything else is
copied unchanged. -/
def encrypt : ByteStr → ByteStr
  | [] => []
  | c :: rest =>
    if cppIsalpha c then glyphRun (abcPosition c) ++ encrypt rest
    else if c = 32 then 47 :: encrypt rest
    else c :: encrypt rest

/-- The loop body of the keyed `encrypt`: glyphs
`GLYPHS[(TRIT_ALPHABET[abcVal][j] + TRIT_ALPHABET[keyAbcVal][j]) % 3]`
for `j = 0, 1, 2`. -/
def keyedRun (abcVal keyAbcVal : Int) : ByteStr :=
  (((TRIT_ALPHABET.getD abcVal.toNat []).zip (TRIT_ALPHABET.getD keyAbcVal.toNat [])).map
    (fun p => GLYPHS.getD ((p.1 + p.2) % 3) [])).flatten

/-- Loop of `encrypt(const std::string&, const std::string&)`, carrying the
mutable `keyIndex` accumulator.  Only alphabetic characters advance
`keyIndex`; the key byte is `key[keyIndex % key.length()]`.  (For an empty
key the C++ `%` is undefined; `List.getD` then returns the default 0, and
`encryptKeyedChecked` below surfaces that case as a failure.) -/
def encryptKeyedGo (key : ByteStr) : ByteStr → Nat → ByteStr
  | [], _ => []
  | c :: rest, keyIndex =>
    if cppIsalpha c then
      keyedRun (abcPosition c) (abcPosition (key.getD (keyIndex % key.length) 0)) ++
        encryptKeyedGo key rest (keyIndex + 1)
    else if c = 32 then 47 :: encryptKeyedGo key rest keyIndex
    else c :: encryptKeyedGo key rest keyIndex

/-- `encrypt(const std::string&, const std::string&)`: the keyed-additive
(Delta-K) encoder, with `keyIndex` starting at 0. -/
def encryptKeyed (plaintext key : ByteStr) : ByteStr := encryptKeyedGo key plaintext 0

/-- `keyValidation` from the Delta_K implementation file: non-empty and
all-alphabetic. -/
def keyValidation (key : ByteStr) : Bool := !key.isEmpty && key.all cppIsalpha

/-- `isGlyph`: is the byte string one of the three glyph strings? -/
def isGlyph (c : ByteStr) : Bool :=
  c == GLYPHS.getD 0 [] || c == GLYPHS.getD 1 [] || c == GLYPHS.getD 2 []

/-- `glyphVal`: trit value of a glyph string, `-1` when unrecognized. -/
def glyphVal (c : ByteStr) : Int :=
  if c = GLYPHS.getD 0 [] then 0
  else if c = GLYPHS.getD 1 [] then 1
  else if c = GLYPHS.getD 2 [] then 2
  else -1

/-- `abcSearch`: linear scan of `TRIT_ALPHABET` for the row equal to
`(a, b, c)`, returning the first matching index, `-1` when none matches. -/
def abcSearch (a b c : Int) : Int :=
  match TRIT_ALPHABET.findIdx? (fun row =>
      ((row.getD 0 0 : Int) == a) && ((row.getD 1 0 : Int) == b) &&
        ((row.getD 2 0 : Int) == c)) with
  | some i => (i : Int)
  | none => -1

/-- Loop of `decrypt`, on the suffix of the ciphertext from the scan
position `i` onward (all the `substr` reads of the loop body are at
offsets `i`, `i + GLYPH_SIZE`, `i + 2 * GLYPH_SIZE`, so only the suffix
matters).  The first argument is fuel, consumed once per iteration; the
top-level call supplies `length` fuel, enough for the loop, which advances
by at least one byte per iteration.  `Except.error "std::out_of_range"`
models the exception thrown by `substr` when its position exceeds the
remaining length. -/
def decryptGo : Nat → ByteStr → Except String ByteStr
  | _, [] => Except.ok []
  | 0, _ :: _ => Except.error "fuel"
  | fuel + 1, c :: rest =>
    let s := c :: rest
    let current1 := s.take GLYPH_SIZE
    if isGlyph current1 then
      match substr s GLYPH_SIZE GLYPH_SIZE, substr s (GLYPH_SIZE * 2) GLYPH_SIZE with
      | some current2, some current3 =>
        (decryptGo fuel (s.drop (GLYPH_SIZE * 3))).map
          (fun p =>
            (65 + abcSearch (glyphVal current1) (glyphVal current2) (glyphVal current3)).toNat :: p)
      | _, _ => Except.error "std::out_of_range"
    else
      (decryptGo fuel rest).map (fun p => c :: p)

/-- `decrypt(const std::string&)`: the static-mode decoder. -/
def decrypt (ciphertext : ByteStr) : Except String ByteStr :=
  decryptGo ciphertext.length ciphertext

/-- The static encoder with its two implicit C++ hazards made explicit:
`TRIT_ALPHABET[abcValue]` is undefined behaviour unless
`0 ≤ abcValue < 26`, surfaced here as `none`. -/
def encryptChecked : ByteStr → Option ByteStr
  | [] => some []
  | c :: rest =>
    if cppIsalpha c then
      if 0 ≤ abcPosition c ∧ abcPosition c < 26 then
        (encryptChecked rest).map (fun t => glyphRun (abcPosition c) ++ t)
      else none
    else if c = 32 then (encryptChecked rest).map (fun t => 47 :: t)
    else (encryptChecked rest).map (fun t => c :: t)

/-- Loop of the keyed-additive encoder with its implicit C++ hazards made
explicit: `keyIndex % key.length()` is undefined for an empty key, and
`TRIT_ALPHABET[v]` is undefined behaviour unless `0 ≤ v < 26`; both are
surfaced as `none`. -/
def encryptKeyedCheckedGo (key : ByteStr) : ByteStr → Nat → Option ByteStr
  | [], _ => some []
  | c :: rest, keyIndex =>
    if cppIsalpha c then
      if key.length = 0 then none
      else
        if 0 ≤ abcPosition c ∧ abcPosition c < 26 ∧
            0 ≤ abcPosition (key.getD (keyIndex % key.length) 0) ∧
            abcPosition (key.getD (keyIndex % key.length) 0) < 26 then
          (encryptKeyedCheckedGo key rest (keyIndex + 1)).map
            (fun t =>
              keyedRun (abcPosition c) (abcPosition (key.getD (keyIndex % key.length) 0)) ++ t)
        else none
    else if c = 32 then (encryptKeyedCheckedGo key rest keyIndex).map (fun t => 47 :: t)
    else (encryptKeyedCheckedGo key rest keyIndex).map (fun t => c :: t)

/-- The keyed-additive encoder with hazards surfaced as `none`. -/
def encryptKeyedChecked (plaintext key : ByteStr) : Option ByteStr :=
  encryptKeyedCheckedGo key plaintext 0

end DeltaK

namespace CipherEncoder

/-- `ALPHABET_LENGTH = 26` from `cipher-encoder.cpp`. -/
def ALPHABET_LENGTH : Nat := 26

/-- The byte string of the glyph `▲`. -/
def gA : ByteStr := [226, 150, 178]

/-- The byte string of the glyph `▼`. -/
def gB : ByteStr := [226, 150, 188]

/-- The byte string of the glyph `◆`. -/
def gC : ByteStr := [226, 151, 134]

/-- `CIPHER_ALPHABET` from `cipher-encoder.cpp`: the 26 three-glyph string
literals, in source order. -/
def CIPHER_ALPHABET : List ByteStr :=
  [gA ++ gA ++ gB, gA ++ gA ++ gC, gA ++ gB ++ gA, gA ++ gB ++ gB, gA ++ gB ++ gC,
   gA ++ gC ++ gA, gA ++ gC ++ gB, gA ++ gC ++ gC,
   gB ++ gA ++ gA, gB ++ gA ++ gB, gB ++ gA ++ gC, gB ++ gB ++ gA, gB ++ gB ++ gB,
   gB ++ gB ++ gC, gB ++ gC ++ gA, gB ++ gC ++ gB, gB ++ gC ++ gC,
   gC ++ gA ++ gA, gC ++ gA ++ gB, gC ++ gA ++ gC, gC ++ gB ++ gA, gC ++ gB ++ gB,
   gC ++ gB ++ gC, gC ++ gC ++ gA, gC ++ gC ++ gB, gC ++ gC ++ gC]

/-- `encrypt(plaintext, alphabet)` from `cipher-encoder.cpp`: alphabetic
characters are replaced by `alphabet[abcPosition(c)]`, every other
character (spaces included) is copied unchanged. -/
def encrypt (plaintext : ByteStr) (alphabet : List ByteStr) : ByteStr :=
  match plaintext with
  | [] => []
  | c :: rest =>
    if cppIsalpha c then alphabet.getD (abcPosition c).toNat [] ++ encrypt rest alphabet
    else c :: encrypt rest alphabet

/-- `keyValidation` from `cipher-encoder.cpp`: all characters alphabetic,
and the uppercased key has as many distinct characters (the size of the
`std::set<char>` built from it) as it has characters.  There is no
emptiness test. -/
def keyValidation (key : ByteStr) : Bool :=
  key.all cppIsalpha && ((key.map cppToupper).dedup.length == (key.map cppToupper).length)

/-- The local string literal `"ABCDEFGHIJKLMNOPQRSTUVWXYZ"`. -/
def plainAlphabet : ByteStr :=
  [65, 66, 67, 68, 69, 70, 71, 72, 73, 74, 75, 76, 77, 78, 79, 80, 81, 82,
   83, 84, 85, 86, 87, 88, 89, 90]

/-- `alphabetWithKey` from `cipher-encoder.cpp`: uppercase the key, erase
each of its characters (first occurrence, inner loop with `break`) from a
working copy of A-Z, then append what is left of the working copy to the
uppercased key. -/
def alphabetWithKey (key : ByteStr) : ByteStr :=
  let keyedAlphabet := key.map cppToupper
  keyedAlphabet ++ keyedAlphabet.foldl (fun alphabet ch => alphabet.erase ch) plainAlphabet

/-- `keyedCipherAlphabet` from `cipher-encoder.cpp`: starting from the 26
default-constructed (empty) strings, write
`output[keyedAlphabet[i] - 65] = CIPHER_ALPHABET[i]` for `i = 0 .. 25`. -/
def keyedCipherAlphabet (keyedAlphabet : ByteStr) : List ByteStr :=
  (List.range ALPHABET_LENGTH).foldl
    (fun output i => output.set (keyedAlphabet.getD i 0 - 65) (CIPHER_ALPHABET.getD i []))
    (List.replicate ALPHABET_LENGTH [])

end CipherEncoder


open DeltaK

/-! ### Character-level lemmas -/

theorem cppIsalpha_iff {c : Nat} :
    cppIsalpha c = true ↔ (65 ≤ c ∧ c ≤ 90) ∨ (97 ≤ c ∧ c ≤ 122) := by
  simp [cppIsalpha]

theorem cppToupper_of_alpha {c : Nat} (h : cppIsalpha c = true) :
    65 ≤ cppToupper c ∧ cppToupper c ≤ 90 := by
  rcases cppIsalpha_iff.mp h with h1 | h1 <;> unfold cppToupper <;> split <;> omega

theorem abcPosition_of_alpha {c : Nat} (h : cppIsalpha c = true) :
    abcPosition c = ((cppToupper c - 65 : Nat) : Int) ∧ cppToupper c - 65 < 26 := by
  have h2 := cppToupper_of_alpha h
  unfold abcPosition
  omega

theorem cppIsalpha_toupper_shift {c : Nat} (h : cppIsalpha c = true) :
    cppToupper c = 65 + (cppToupper c - 65) := by
  have h2 := cppToupper_of_alpha h
  omega

/-! ### Facts about the constant tables, settled by evaluation -/

theorem tritRow_explicit :
    ∀ v : Fin 26, TRIT_ALPHABET.getD v.val [] =
      [tritAt v.val 0, tritAt v.val 1, tritAt v.val 2] ∧
      tritAt v.val 0 < 3 ∧ tritAt v.val 1 < 3 ∧ tritAt v.val 2 < 3 := by decide

theorem glyph_facts :
    ∀ a : Fin 3, (GLYPHS.getD a.val []).length = 3 ∧
      isGlyph (GLYPHS.getD a.val []) = true ∧
      glyphVal (GLYPHS.getD a.val []) = (a.val : Int) ∧
      (GLYPHS.getD a.val []).getD 0 0 = 226 := by decide

theorem abcSearch_row :
    ∀ v : Fin 26,
      abcSearch (tritAt v.val 0 : Int) (tritAt v.val 1 : Int)
        (tritAt v.val 2 : Int) = (v.val : Int) := by decide

/-! ### Structure of one encoded letter -/

theorem glyphRun_explicit {v : Nat} (h : v < 26) :
    glyphRun (v : Int) =
      GLYPHS.getD (tritAt v 0) [] ++ (GLYPHS.getD (tritAt v 1) [] ++ GLYPHS.getD (tritAt v 2) []) := by
  have hrow : TRIT_ALPHABET.getD v [] = [tritAt v 0, tritAt v 1, tritAt v 2] :=
    (tritRow_explicit ⟨v, h⟩).1
  simp only [glyphRun, Int.toNat_natCast]
  rw [hrow]
  simp

theorem length_three_explicit (l : ByteStr) (h : l.length = 3) :
    ∃ x y z, l = [x, y, z] := by
  match l, h with
  | [x, y, z], _ => exact ⟨x, y, z, rfl⟩

theorem take_len_append (l t : ByteStr) {n : Nat} (h : l.length = n) :
    (l ++ t).take n = l := by
  subst h; exact List.take_left l t

theorem drop_len_append (l t : ByteStr) {n : Nat} (h : l.length = n) :
    (l ++ t).drop n = t := by
  subst h; exact List.drop_left l t

/-! ### Decoder step lemmas -/

theorem isGlyph_cons_head_ne {c : Nat} (l : ByteStr) (hc : c ≠ 226) :
    isGlyph ((c :: l).take GLYPH_SIZE) = false := by
  show isGlyph (c :: l.take 2) = false
  simp [isGlyph, GLYPHS, List.cons.injEq, hc]

theorem decryptGo_literal_step {c : Nat} {rest : ByteStr} {fuel : Nat}
    (h : isGlyph ((c :: rest).take GLYPH_SIZE) = false) :
    decryptGo (fuel + 1) (c :: rest) = (decryptGo fuel rest).map (fun p => c :: p) := by
  simp only [decryptGo, h]
  rfl

theorem decryptGo_glyph_block {a b d : Nat} (ha : a < 3) (hb : b < 3) (hd : d < 3)
    (u : ByteStr) (fuel : Nat) :
    decryptGo (fuel + 1) (GLYPHS.getD a [] ++ (GLYPHS.getD b [] ++ (GLYPHS.getD d [] ++ u))) =
      (decryptGo fuel u).map
        (fun p => (65 + abcSearch (a : Int) (b : Int) (d : Int)).toNat :: p) := by
  have hla : (GLYPHS.getD a []).length = GLYPH_SIZE := (glyph_facts ⟨a, ha⟩).1
  have hlb : (GLYPHS.getD b []).length = GLYPH_SIZE := (glyph_facts ⟨b, hb⟩).1
  have hld : (GLYPHS.getD d []).length = GLYPH_SIZE := (glyph_facts ⟨d, hd⟩).1
  obtain ⟨x, y, z, hxyz⟩ := length_three_explicit _ hla
  have hs : GLYPHS.getD a [] ++ (GLYPHS.getD b [] ++ (GLYPHS.getD d [] ++ u)) =
      x :: (y :: (z :: (GLYPHS.getD b [] ++ (GLYPHS.getD d [] ++ u)))) := by
    rw [hxyz]; rfl
  have htakeA : (GLYPHS.getD a [] ++ (GLYPHS.getD b [] ++ (GLYPHS.getD d [] ++ u))).take
      GLYPH_SIZE = GLYPHS.getD a [] := take_len_append _ _ hla
  have hlen : GLYPH_SIZE ≤ (GLYPHS.getD a [] ++ (GLYPHS.getD b [] ++ (GLYPHS.getD d [] ++ u))).length := by
    simp only [List.length_append, hla]
    omega
  have hlen2 : GLYPH_SIZE * 2 ≤ (GLYPHS.getD a [] ++ (GLYPHS.getD b [] ++ (GLYPHS.getD d [] ++ u))).length := by
    simp only [List.length_append, hla, hlb]
    omega
  have hdrop3 : (GLYPHS.getD a [] ++ (GLYPHS.getD b [] ++ (GLYPHS.getD d [] ++ u))).drop GLYPH_SIZE =
      GLYPHS.getD b [] ++ (GLYPHS.getD d [] ++ u) := drop_len_append _ _ hla
  have hsub2 : substr (GLYPHS.getD a [] ++ (GLYPHS.getD b [] ++ (GLYPHS.getD d [] ++ u)))
      GLYPH_SIZE GLYPH_SIZE = some (GLYPHS.getD b []) := by
    unfold substr
    rw [if_pos hlen, hdrop3, take_len_append _ _ hlb]
  have hdrop6 : (GLYPHS.getD a [] ++ (GLYPHS.getD b [] ++ (GLYPHS.getD d [] ++ u))).drop
      (GLYPH_SIZE * 2) = GLYPHS.getD d [] ++ u := by
    have h6 : (GLYPHS.getD a [] ++ GLYPHS.getD b []).length = GLYPH_SIZE * 2 := by
      simp only [List.length_append, hla, hlb]
      omega
    rw [← List.append_assoc]
    exact drop_len_append _ _ h6
  have hsub3 : substr (GLYPHS.getD a [] ++ (GLYPHS.getD b [] ++ (GLYPHS.getD d [] ++ u)))
      (GLYPH_SIZE * 2) GLYPH_SIZE = some (GLYPHS.getD d []) := by
    unfold substr
    rw [if_pos hlen2, hdrop6, take_len_append _ _ hld]
  have hdrop9 : (GLYPHS.getD a [] ++ (GLYPHS.getD b [] ++ (GLYPHS.getD d [] ++ u))).drop
      (GLYPH_SIZE * 3) = u := by
    have h9 : ((GLYPHS.getD a [] ++ GLYPHS.getD b []) ++ GLYPHS.getD d []).length = GLYPH_SIZE * 3 := by
      simp only [List.length_append, hla, hlb, hld]
      omega
    rw [← List.append_assoc, ← List.append_assoc]
    exact drop_len_append _ _ h9
  rw [hs]
  simp only [decryptGo]
  rw [← hs]
  rw [htakeA, (glyph_facts ⟨a, ha⟩).2.1]
  simp only [if_true, hsub2, hsub3, hdrop9,
    (glyph_facts ⟨a, ha⟩).2.2.1, (glyph_facts ⟨b, hb⟩).2.2.1, (glyph_facts ⟨d, hd⟩).2.2.1]

/-! ### Static round trip -/

theorem glyphRun_length {v : Nat} (h : v < 26) : (glyphRun (v : Int)).length = 9 := by
  rw [glyphRun_explicit h]
  have h0 := (tritRow_explicit ⟨v, h⟩).2
  simp only [List.length_append,
    (glyph_facts ⟨tritAt v 0, h0.1⟩).1, (glyph_facts ⟨tritAt v 1, h0.2.1⟩).1,
    (glyph_facts ⟨tritAt v 2, h0.2.2⟩).1]

theorem decrypt_encrypt_aux :
    ∀ s : ByteStr, (∀ c ∈ s, cppIsalpha c = true ∨ c = 32) →
      ∀ fuel, (encrypt s).length ≤ fuel →
        decryptGo fuel (encrypt s) =
          Except.ok (s.map (fun c => if c = 32 then 47 else cppToupper c)) := by
  intro s
  induction s with
  | nil =>
    intro _ fuel _
    simp [encrypt, decryptGo]
  | cons c r ih =>
    intro hall fuel hfuel
    have hr : ∀ x ∈ r, cppIsalpha x = true ∨ x = 32 := fun x hx => hall x (List.mem_cons_of_mem c hx)
    rcases hall c (List.mem_cons_self c r) with hc | hc
    · -- alphabetic character: a block of three glyphs
      have hpos := abcPosition_of_alpha hc
      have hup := cppToupper_of_alpha hc
      set n := cppToupper c - 65 with hn
      have hn26 : n < 26 := hpos.2
      have htr := (tritRow_explicit ⟨n, hn26⟩).2
      have henc : encrypt (c :: r) = glyphRun ((n : Nat) : Int) ++ encrypt r := by
        simp only [encrypt]
        rw [if_pos hc, hpos.1]
      have hblock : glyphRun ((n : Nat) : Int) ++ encrypt r =
          GLYPHS.getD (tritAt n 0) [] ++ (GLYPHS.getD (tritAt n 1) [] ++
            (GLYPHS.getD (tritAt n 2) [] ++ encrypt r)) := by
        rw [glyphRun_explicit hn26]
        simp [List.append_assoc]
      have hlen : (encrypt (c :: r)).length = 9 + (encrypt r).length := by
        rw [henc, List.length_append, glyphRun_length hn26]
      cases fuel with
      | zero => omega
      | succ f =>
        rw [henc, hblock, decryptGo_glyph_block htr.1 htr.2.1 htr.2.2 (encrypt r) f]
        rw [ih hr f (by omega)]
        have hsearch := abcSearch_row ⟨n, hn26⟩
        simp only [] at hsearch
        rw [hsearch]
        have hc32 : c ≠ 32 := by
          intro h32
          rw [h32] at hc
          exact absurd hc (by decide)
        simp only [List.map_cons, if_neg hc32, Except.map]
        have : (65 + ((n : Nat) : Int)).toNat = cppToupper c := by omega
        rw [this]
    · -- space: the single byte 47
      subst hc
      have henc : encrypt (32 :: r) = 47 :: encrypt r := by
        simp only [encrypt]
        rw [if_neg (by decide : ¬ cppIsalpha 32 = true), if_pos trivial]
      rw [henc] at hfuel ⊢
      cases fuel with
      | zero => simp at hfuel
      | succ f =>
        rw [decryptGo_literal_step (isGlyph_cons_head_ne (encrypt r) (by decide))]
        rw [ih hr f (by simpa using hfuel)]
        simp [Except.map]

/-! ### Claims C1, C8, C10 -/

/-- C1, counterexample: the claim says `decrypt (encrypt s)` reproduces `s`
up to uppercasing for every string of letters and spaces, the `/` written
for a space being mapped back to a space.  On `"A B"` (bytes 65, 32, 66)
the decoder returns `"A/B"` (bytes 65, 47, 66): its literal branch copies
the byte 47 through unchanged, it never maps `/` back to a space. -/
theorem c1_counterexample :
    DeltaK.decrypt (DeltaK.encrypt [65, 32, 66]) = Except.ok [65, 47, 66] ∧
      ([65, 47, 66] : ByteStr) ≠ [65, 32, 66] :=
  ⟨rfl, by decide⟩

/-- C1, amended: for every string of ASCII letters and spaces,
`decrypt (encrypt s)` succeeds and returns `s` with every letter
uppercased and every space replaced by `/` (byte 47); the decoder leaves
the `/` written for a space as a literal `/` instead of restoring the
space.  In particular on letters-only strings the round trip returns the
uppercased input. -/
theorem c1_roundtrip_amended (s : ByteStr) (h : ∀ c ∈ s, cppIsalpha c = true ∨ c = 32) :
    DeltaK.decrypt (DeltaK.encrypt s) =
      Except.ok (s.map (fun c => if c = 32 then 47 else cppToupper c)) :=
  decrypt_encrypt_aux s h _ le_rfl

/-- Witness for the amended C1 at the concrete input `"Hi a"`
(bytes 72, 105, 32, 97): the round trip returns `"HI/A"`. -/
theorem c1_roundtrip_amended_witness :
    DeltaK.decrypt (DeltaK.encrypt [72, 105, 32, 97]) = Except.ok [72, 73, 47, 65] :=
  c1_roundtrip_amended [72, 105, 32, 97] (by decide)

/-- C8, counterexample: the claim says that whenever the window at the
current position is not composed of recognized glyphs (all three candidate
glyphs tested), the decoder copies the single current character through as
a literal and advances by one.  The code tests only the first glyph-sized
window: on `"▲abcdef"` the first window is the glyph `▲` but the next two
windows `abc` and `def` are unrecognized, and the decoder still consumes
the whole 9-byte run and emits the non-literal byte 64 (`'@'`, from
`'A' + abcSearch(0,-1,-1) = 'A' - 1`), a byte that occurs nowhere in the
input, instead of copying the current character. -/
theorem c8_counterexample :
    DeltaK.decrypt ([226, 150, 178] ++ [97, 98, 99, 100, 101, 102]) = Except.ok [64] ∧
      (64 : Nat) ∉ ([226, 150, 178] ++ [97, 98, 99, 100, 101, 102] : ByteStr) :=
  ⟨rfl, by decide⟩

/-- C8, amended: the decoder tests only the first glyph-sized window at
the current position; whenever that window is not a recognized glyph, it
copies the single current character through as a literal and advances by
one character.  (When the first window is a glyph, it consumes a full
9-byte run whether or not the remaining windows are recognized.) -/
theorem c8_literal_fallback (c : Nat) (rest : ByteStr)
    (h : DeltaK.isGlyph ((c :: rest).take DeltaK.GLYPH_SIZE) = false) :
    DeltaK.decrypt (c :: rest) = (DeltaK.decrypt rest).map (fun p => c :: p) := by
  unfold DeltaK.decrypt
  simp only [List.length_cons]
  exact decryptGo_literal_step h

/-- Witness for the amended C8 at the literal byte `'a'` (97). -/
theorem c8_literal_fallback_witness :
    DeltaK.isGlyph (([97] : ByteStr).take DeltaK.GLYPH_SIZE) = false ∧
      DeltaK.decrypt [97] = (DeltaK.decrypt []).map (fun p => 97 :: p) :=
  ⟨by decide, c8_literal_fallback 97 [] (by decide)⟩

/-- C10: the decoder is not total.  On the ciphertext consisting of the
single glyph `▲` (bytes 226, 150, 178) the first window is a recognized
glyph, so the decoder reads the windows at `GLYPH_SIZE` and
`2 * GLYPH_SIZE`; the latter starts past the end of the 3-byte input, so
`substr` raises `std::out_of_range` and `decrypt` fails instead of
returning a string. -/
theorem c10_decrypt_not_total :
    DeltaK.decrypt [226, 150, 178] = Except.error "std::out_of_range" := rfl

/-! ### Claims C2 and C4 -/

/-- C2: for every letter index `i`, `abcSearch` applied to the three trits
of row `i` of `TRIT_ALPHABET` returns `i`; the 26 rows are pairwise
distinct, and each is a triple over `{0, 1, 2}`. -/
theorem c2_bijection :
    (∀ i : Fin 26,
      DeltaK.abcSearch (DeltaK.tritAt i.val 0 : Int) (DeltaK.tritAt i.val 1 : Int)
        (DeltaK.tritAt i.val 2 : Int) = (i.val : Int)) ∧
    List.Pairwise (· ≠ ·) DeltaK.TRIT_ALPHABET ∧
    (∀ row ∈ DeltaK.TRIT_ALPHABET, row.length = 3 ∧ ∀ t ∈ row, t < 3) := by decide

/-- C4, counterexample: the claim says the empty key is rejected in all
modes, but the permutation-mode validator of `cipher-encoder.cpp` accepts
it: its loop body never runs, and the set of zero characters has the same
size as the empty uppercased key. -/
theorem c4_counterexample : CipherEncoder.keyValidation [] = true := by decide

/-- C4, amended: the additive-mode validator rejects the empty key but the
permutation-mode validator accepts it; `"aabb"` is rejected by the
permutation-mode validator (duplicate letters) and accepted by the
additive-mode validator; `"a1b"` is rejected by both (non-alphabetic
character). -/
theorem c4_validation :
    DeltaK.keyValidation [] = false ∧
    CipherEncoder.keyValidation [] = true ∧
    CipherEncoder.keyValidation [97, 97, 98, 98] = false ∧
    DeltaK.keyValidation [97, 97, 98, 98] = true ∧
    DeltaK.keyValidation [97, 49, 98] = false ∧
    CipherEncoder.keyValidation [97, 49, 98] = false := by decide

/-! ### Space handling across the three encoders (claim C6) -/

theorem encrypt_append (s t : ByteStr) : encrypt (s ++ t) = encrypt s ++ encrypt t := by
  induction s with
  | nil => simp [encrypt]
  | cons c r ih =>
    by_cases hc : cppIsalpha c = true
    · simp [encrypt, hc, ih, List.append_assoc]
    · by_cases h32 : c = 32
      · subst h32
        simp [encrypt, hc, ih]
      · simp [encrypt, hc, h32, ih]

theorem encrypt_cons_space (t : ByteStr) : encrypt (32 :: t) = 47 :: encrypt t := by
  simp only [encrypt]
  rw [if_neg (by decide : ¬ cppIsalpha 32 = true), if_pos trivial]

theorem encryptKeyedGo_append (key : ByteStr) (s t : ByteStr) :
    ∀ k, encryptKeyedGo key (s ++ t) k =
      encryptKeyedGo key s k ++ encryptKeyedGo key t (k + s.countP cppIsalpha) := by
  induction s with
  | nil => intro k; simp [encryptKeyedGo]
  | cons c r ih =>
    intro k
    by_cases hc : cppIsalpha c = true
    · have hidx : k + 1 + List.countP cppIsalpha r = k + List.countP cppIsalpha (c :: r) := by
        rw [List.countP_cons]
        simp [hc]
        omega
      simp only [List.cons_append, List.append_eq, encryptKeyedGo, if_pos hc, ih (k + 1), hidx,
        List.append_assoc]
    · have hidx : k + List.countP cppIsalpha r = k + List.countP cppIsalpha (c :: r) := by
        rw [List.countP_cons]
        simp [hc]
      by_cases h32 : c = 32
      · subst h32
        simp only [List.cons_append, List.append_eq, encryptKeyedGo, if_neg hc, if_pos trivial,
          ih k, hidx, List.cons_append]
      · simp only [List.cons_append, List.append_eq, encryptKeyedGo, if_neg hc, if_neg h32,
          ih k, hidx, List.cons_append]

theorem encryptKeyedGo_cons_space (key t : ByteStr) (k : Nat) :
    encryptKeyedGo key (32 :: t) k = 47 :: encryptKeyedGo key t k := by
  simp only [encryptKeyedGo]
  rw [if_neg (by decide : ¬ cppIsalpha 32 = true), if_pos trivial]

theorem cipherEncrypt_append (alphabet : List ByteStr) (s t : ByteStr) :
    CipherEncoder.encrypt (s ++ t) alphabet =
      CipherEncoder.encrypt s alphabet ++ CipherEncoder.encrypt t alphabet := by
  induction s with
  | nil => simp [CipherEncoder.encrypt]
  | cons c r ih =>
    by_cases hc : cppIsalpha c = true
    · simp [CipherEncoder.encrypt, hc, ih, List.append_assoc]
    · simp [CipherEncoder.encrypt, hc, ih]

theorem cipherEncrypt_cons_space (alphabet : List ByteStr) (t : ByteStr) :
    CipherEncoder.encrypt (32 :: t) alphabet = 32 :: CipherEncoder.encrypt t alphabet := by
  simp only [CipherEncoder.encrypt]
  rw [if_neg (by decide : ¬ cppIsalpha 32 = true)]

/-- C6, counterexample: the claim says every encoder, the keyed-permutation
encoder included, emits `/` for each space.  The keyed-permutation
`encrypt` of `cipher-encoder.cpp` has no space case at all: with the table
derived from the valid key `"KEY"`, encrypting the one-space plaintext
returns the space (byte 32) unchanged, not `/` (byte 47). -/
theorem c6_counterexample :
    CipherEncoder.encrypt [32]
        (CipherEncoder.keyedCipherAlphabet (CipherEncoder.alphabetWithKey [75, 69, 89])) =
      [32] ∧ ([32] : ByteStr) ≠ [47] :=
  ⟨by decide, by decide⟩

/-- C6, amended: the two Delta_K encoders (static and keyed-additive) emit
the single separator `/` (byte 47) for each space of the plaintext; the
keyed-permutation encoder of `cipher-encoder.cpp` instead copies each
space through unchanged, whatever code table it is given. -/
theorem c6_space_separator :
    (∀ s t : ByteStr, DeltaK.encrypt (s ++ 32 :: t) = DeltaK.encrypt s ++ 47 :: DeltaK.encrypt t) ∧
    (∀ key s t : ByteStr, ∀ k : Nat,
      DeltaK.encryptKeyedGo key (s ++ 32 :: t) k =
        DeltaK.encryptKeyedGo key s k ++
          47 :: DeltaK.encryptKeyedGo key t (k + s.countP cppIsalpha)) ∧
    (∀ alphabet : List ByteStr, ∀ s t : ByteStr,
      CipherEncoder.encrypt (s ++ 32 :: t) alphabet =
        CipherEncoder.encrypt s alphabet ++ 32 :: CipherEncoder.encrypt t alphabet) := by
  refine ⟨fun s t => ?s1, fun key s t k => ?s2, fun alphabet s t => ?s3⟩
  · rw [encrypt_append, encrypt_cons_space]
  · rw [encryptKeyedGo_append, encryptKeyedGo_cons_space]
  · rw [cipherEncrypt_append, cipherEncrypt_cons_space]

/-! ### Keyed-additive encoder against the spec wording (claim C5) -/

/-- Defined from the words of claim C5 (spec section 4.3), for comparison
with the source-derived `encryptKeyedGo`: the output contribution of one
plaintext character `c` when `k` alphabetic characters precede it.  The
k-th alphabetic character is combined trit by trit modulo 3 with the key
letter `key[k mod len(key)]`; a space yields `/`; any other
non-alphabetic character passes through unchanged. -/
def additiveSpecChar (key : ByteStr) (k : Nat) (c : Nat) : ByteStr :=
  if cppIsalpha c then
    keyedRun (abcPosition c) (abcPosition (key.getD (k % key.length) 0))
  else if c = 32 then [47] else [c]

/-- Defined from the words of claim C5: position-indexed description of
the keyed-additive encoder.  The key index at position `i` is computed
directly as the number of alphabetic characters strictly before `i`,
rather than by the running counter of the source loop. -/
def additiveSpec (key s : ByteStr) : ByteStr :=
  ((List.range s.length).map
    (fun i => additiveSpecChar key ((s.take i).countP cppIsalpha) (s.getD i 0))).flatten

theorem encryptKeyedGo_spec (key : ByteStr) :
    ∀ (s : ByteStr) (k0 : Nat),
      encryptKeyedGo key s k0 =
        ((List.range s.length).map
          (fun i => additiveSpecChar key (k0 + (s.take i).countP cppIsalpha) (s.getD i 0))).flatten := by
  intro s
  induction s with
  | nil => intro k0; simp [encryptKeyedGo]
  | cons c r ih =>
    intro k0
    rw [List.length_cons, List.range_succ_eq_map]
    simp only [List.map_cons, List.map_map, List.flatten_cons, Function.comp_def,
      List.take_succ_cons, List.countP_cons, List.getD_cons_succ, List.getD_cons_zero,
      List.take_zero, List.countP_nil, Nat.add_zero]
    by_cases hc : cppIsalpha c = true
    · rw [show encryptKeyedGo key (c :: r) k0 =
          keyedRun (abcPosition c) (abcPosition (key.getD (k0 % key.length) 0)) ++
            encryptKeyedGo key r (k0 + 1) by
        simp only [encryptKeyedGo]; rw [if_pos hc]]
      rw [ih (k0 + 1)]
      simp [additiveSpecChar, hc, Nat.add_comm, Nat.add_assoc, Nat.add_left_comm]
    · by_cases h32 : c = 32
      · subst h32
        rw [show encryptKeyedGo key (32 :: r) k0 = 47 :: encryptKeyedGo key r k0 from
          encryptKeyedGo_cons_space key r k0]
        rw [ih k0]
        simp [additiveSpecChar, hc]
      · rw [show encryptKeyedGo key (c :: r) k0 = c :: encryptKeyedGo key r k0 by
          simp only [encryptKeyedGo]; rw [if_neg hc, if_neg h32]]
        rw [ih k0]
        simp [additiveSpecChar, hc, h32]

/-- C5: for every plaintext and every non-empty all-alphabetic key, the
keyed-additive encoder agrees with the spec-worded description: the k-th
alphabetic character (k = number of alphabetic characters before it, the
only characters that advance the key index) is encoded as the three
glyphs of the tritwise `(plain + key) mod 3` triple with key letter
`key[k mod len(key)]`; non-alphabetic, non-space characters pass through
unchanged without advancing the key index. -/
theorem c5_additive (plaintext key : ByteStr) (hne : key ≠ [])
    (ha : key.all cppIsalpha = true) :
    DeltaK.encryptKeyed plaintext key = additiveSpec key plaintext := by
  unfold DeltaK.encryptKeyed additiveSpec
  rw [encryptKeyedGo_spec]
  simp

/-- Witness for C5: plaintext `"A1A a b"`-like bytes with key `"BC"`. -/
theorem c5_additive_witness :
    ([66, 67] : ByteStr) ≠ [] ∧ (([66, 67] : ByteStr).all cppIsalpha = true) ∧
      DeltaK.encryptKeyed [65, 49, 65, 32, 97, 98] [66, 67] =
        additiveSpec [66, 67] [65, 49, 65, 32, 97, 98] :=
  ⟨by decide, by decide, c5_additive [65, 49, 65, 32, 97, 98] [66, 67] (by decide) (by decide)⟩

/-! ### Totality of the encoders (claim C9) -/

theorem abcPosition_bounds {c : Nat} (h : cppIsalpha c = true) :
    0 ≤ abcPosition c ∧ abcPosition c < 26 := by
  have h2 := cppToupper_of_alpha h
  unfold abcPosition
  omega

theorem keyValidation_length {key : ByteStr} (h : keyValidation key = true) :
    0 < key.length := by
  cases key with
  | nil => simp [keyValidation] at h
  | cons a l => simp

theorem keyValidation_char_alpha {key : ByteStr} (h : keyValidation key = true) (n : Nat) :
    cppIsalpha (key.getD (n % key.length) 0) = true := by
  have hlen := keyValidation_length h
  have hidx : n % key.length < key.length := Nat.mod_lt n hlen
  rw [List.getD_eq_getElem key 0 hidx]
  have hall : key.all cppIsalpha = true := by
    unfold keyValidation at h
    simp only [Bool.and_eq_true] at h
    exact h.2
  exact List.all_eq_true.mp hall _ (List.getElem_mem hidx)

theorem encryptChecked_total (s : ByteStr) : encryptChecked s = some (encrypt s) := by
  induction s with
  | nil => rfl
  | cons c r ih =>
    by_cases hc : cppIsalpha c = true
    · simp only [encryptChecked, encrypt, if_pos hc, if_pos (abcPosition_bounds hc), ih,
        Option.map_some']
    · by_cases h32 : c = 32
      · subst h32
        simp only [encryptChecked, encrypt, if_neg hc, if_pos trivial, ih, Option.map_some']
      · simp only [encryptChecked, encrypt, if_neg hc, if_neg h32, ih, Option.map_some']

theorem encryptKeyedCheckedGo_total {key : ByteStr} (h : keyValidation key = true) :
    ∀ (s : ByteStr) (k : Nat),
      encryptKeyedCheckedGo key s k = some (encryptKeyedGo key s k) := by
  intro s
  induction s with
  | nil => intro k; rfl
  | cons c r ih =>
    intro k
    by_cases hc : cppIsalpha c = true
    · have hg : 0 ≤ abcPosition c ∧ abcPosition c < 26 ∧
          0 ≤ abcPosition (key.getD (k % key.length) 0) ∧
          abcPosition (key.getD (k % key.length) 0) < 26 := by
        obtain ⟨h1, h2⟩ := abcPosition_bounds hc
        obtain ⟨h3, h4⟩ := abcPosition_bounds (keyValidation_char_alpha h k)
        exact ⟨h1, h2, h3, h4⟩
      have hne : ¬ key.length = 0 := by
        have := keyValidation_length h
        omega
      simp only [encryptKeyedCheckedGo, encryptKeyedGo, if_pos hc, if_neg hne, if_pos hg,
        ih (k + 1), Option.map_some']
    · by_cases h32 : c = 32
      · subst h32
        simp only [encryptKeyedCheckedGo, encryptKeyedGo, if_neg hc, if_pos trivial, ih k,
          Option.map_some']
      · simp only [encryptKeyedCheckedGo, encryptKeyedGo, if_neg hc, if_neg h32, ih k,
          Option.map_some']

/-- C9: every encode path is total.  With any key accepted by the
Delta_K validator (non-empty and all-alphabetic, the well-formedness
condition of the interface), the keyed-additive encoder with all its C++
hazards surfaced (`keyIndex % key.length()` with a zero modulus, and every
`TRIT_ALPHABET` index outside `[0, 25]`, both modelled as `none`) always
returns a value, and likewise the static encoder; the checked encoders
agree with the plain embeddings on every plaintext. -/
theorem c9_encoders_total (plaintext key : ByteStr) (h : DeltaK.keyValidation key = true) :
    DeltaK.encryptKeyedChecked plaintext key = some (DeltaK.encryptKeyed plaintext key) ∧
      DeltaK.encryptChecked plaintext = some (DeltaK.encrypt plaintext) :=
  ⟨encryptKeyedCheckedGo_total h plaintext 0, encryptChecked_total plaintext⟩

/-- Witness for C9 at plaintext `"Hi! "`-like bytes and key `"KeY"`. -/
theorem c9_encoders_total_witness :
    DeltaK.keyValidation [75, 101, 89] = true ∧
      (DeltaK.encryptKeyedChecked [72, 105, 33, 32] [75, 101, 89] =
        some (DeltaK.encryptKeyed [72, 105, 33, 32] [75, 101, 89]) ∧
      DeltaK.encryptChecked [72, 105, 33, 32] =
        some (DeltaK.encrypt [72, 105, 33, 32])) :=
  ⟨by decide, c9_encoders_total [72, 105, 33, 32] [75, 101, 89] (by decide)⟩

/-! ### The keyword-derived alphabet (claims C3, C7) -/

theorem mem_plainAlphabet {x : Nat} :
    x ∈ CipherEncoder.plainAlphabet ↔ 65 ≤ x ∧ x ≤ 90 := by
  simp [CipherEncoder.plainAlphabet]
  omega

theorem plainAlphabet_nodup : CipherEncoder.plainAlphabet.Nodup := by decide

theorem plainAlphabet_length : CipherEncoder.plainAlphabet.length = 26 := by decide

theorem foldl_erase_eq_filter :
    ∀ (K az : ByteStr), az.Nodup →
      K.foldl (fun alphabet ch => alphabet.erase ch) az =
        az.filter (fun x => !decide (x ∈ K)) := by
  intro K
  induction K with
  | nil =>
    intro az _
    simp
  | cons k K ih =>
    intro az h
    rw [List.foldl_cons, ih (az.erase k) (h.erase k), h.erase_eq_filter k, List.filter_filter]
    congr 1
    funext x
    by_cases hx : x = k <;> by_cases hK : x ∈ K <;> simp [hx, hK]

theorem upper_key_mem {c : Nat} (hc : cppIsalpha c = true) :
    cppToupper c ∈ CipherEncoder.plainAlphabet :=
  mem_plainAlphabet.mpr (cppToupper_of_alpha hc)

theorem cipherKeyValidation_alpha {key : ByteStr} (h : CipherEncoder.keyValidation key = true) :
    key.all cppIsalpha = true := by
  unfold CipherEncoder.keyValidation at h
  simp only [Bool.and_eq_true] at h
  exact h.1

theorem cipherKeyValidation_nodup {key : ByteStr} (h : CipherEncoder.keyValidation key = true) :
    (key.map cppToupper).Nodup := by
  unfold CipherEncoder.keyValidation at h
  simp only [Bool.and_eq_true, beq_iff_eq] at h
  exact List.dedup_eq_self.mp
    ((key.map cppToupper).dedup_sublist.eq_of_length h.2)

theorem alphabetWithKey_eq (key : ByteStr) :
    CipherEncoder.alphabetWithKey key =
      key.map cppToupper ++
        CipherEncoder.plainAlphabet.filter (fun x => !decide (x ∈ key.map cppToupper)) := by
  simp only [CipherEncoder.alphabetWithKey]
  rw [foldl_erase_eq_filter _ _ plainAlphabet_nodup]

theorem alphabetWithKey_perm {key : ByteStr} (ha : key.all cppIsalpha = true)
    (hnd : (key.map cppToupper).Nodup) :
    (CipherEncoder.alphabetWithKey key).Perm CipherEncoder.plainAlphabet := by
  rw [alphabetWithKey_eq]
  have hKsub : ∀ x ∈ key.map cppToupper, x ∈ CipherEncoder.plainAlphabet := by
    intro x hx
    obtain ⟨c, hc, rfl⟩ := List.mem_map.mp hx
    exact upper_key_mem (List.all_eq_true.mp ha c hc)
  have h1 : (key.map cppToupper).Perm
      (CipherEncoder.plainAlphabet.filter (fun x => decide (x ∈ key.map cppToupper))) := by
    rw [List.perm_ext_iff_of_nodup hnd (plainAlphabet_nodup.filter _)]
    intro a
    simp only [List.mem_filter, decide_eq_true_eq]
    exact ⟨fun hK => ⟨hKsub a hK, hK⟩, fun hp => hp.2⟩
  exact (h1.append_right _).trans
    (List.filter_append_perm (fun x => decide (x ∈ key.map cppToupper)) CipherEncoder.plainAlphabet)

/-- C3, counterexample: the claim says `alphabetWithKey(key)` has length
exactly 26 for every alphabetic keyword, repeated letters included.  For
the keyword `"aa"` the uppercased keyword `AA` (both occurrences) is kept
in front and only one `A` is erased from the working alphabet, so the
result is `AA` followed by the 25 letters `B..Z`: length 27, not 26 (and
not a permutation of A-Z). -/
theorem c3_counterexample : (CipherEncoder.alphabetWithKey [97, 97]).length ≠ 26 := by decide

/-- C3, amended: for every keyword of distinct alphabetic characters (as
enforced by the permutation-mode validator), `alphabetWithKey(key)` is the
uppercased keyword in first-occurrence order followed by the remaining
letters of A-Z in alphabetical order; it is a permutation of A-Z and has
length exactly 26.  (With repeated keyword letters the duplicate is kept
in the front part but erased from A-Z only once, so the length exceeds
26.) -/
theorem c3_keyed_alphabet (key : ByteStr) (h : CipherEncoder.keyValidation key = true) :
    CipherEncoder.alphabetWithKey key =
      key.map cppToupper ++
        CipherEncoder.plainAlphabet.filter (fun x => !decide (x ∈ key.map cppToupper)) ∧
    (CipherEncoder.alphabetWithKey key).Perm CipherEncoder.plainAlphabet ∧
    (CipherEncoder.alphabetWithKey key).length = 26 := by
  have hp := alphabetWithKey_perm (cipherKeyValidation_alpha h) (cipherKeyValidation_nodup h)
  exact ⟨alphabetWithKey_eq key, hp, hp.length_eq.trans plainAlphabet_length⟩

/-- Witness for the amended C3 at the keyword `"Key"` (bytes 75, 101, 89). -/
theorem c3_keyed_alphabet_witness :
    CipherEncoder.keyValidation [75, 101, 89] = true ∧
      (CipherEncoder.alphabetWithKey [75, 101, 89] =
        [75, 101, 89].map cppToupper ++
          CipherEncoder.plainAlphabet.filter
            (fun x => !decide (x ∈ [75, 101, 89].map cppToupper)) ∧
      (CipherEncoder.alphabetWithKey [75, 101, 89]).Perm CipherEncoder.plainAlphabet ∧
      (CipherEncoder.alphabetWithKey [75, 101, 89]).length = 26) :=
  ⟨by decide, c3_keyed_alphabet [75, 101, 89] (by decide)⟩

/-! ### The keyed code table (claim C7) -/

theorem foldl_set_getD_notmem (idx : Nat → Nat) (val : Nat → ByteStr) :
    ∀ (js : List Nat) (init : List ByteStr) (p : Nat), (∀ j ∈ js, idx j ≠ p) →
      (js.foldl (fun out j => out.set (idx j) (val j)) init).getD p [] = init.getD p [] := by
  intro js
  induction js with
  | nil => intro init p _; rfl
  | cons j js ih =>
    intro init p hne
    rw [List.foldl_cons, ih _ p (fun x hx => hne x (List.mem_cons_of_mem j hx))]
    rw [List.getD_eq_getElem?_getD, List.getD_eq_getElem?_getD,
      List.getElem?_set_ne (hne j (List.mem_cons_self j js))]

theorem foldl_set_getD_mem (idx : Nat → Nat) (val : Nat → ByteStr) :
    ∀ (js : List Nat) (init : List ByteStr) (i : Nat),
      js.Nodup → i ∈ js → idx i < init.length →
      (∀ j ∈ js, idx j = idx i → j = i) →
      (js.foldl (fun out j => out.set (idx j) (val j)) init).getD (idx i) [] = val i := by
  intro js
  induction js with
  | nil => intro init i _ hi; exact fun _ _ => absurd hi (List.not_mem_nil i)
  | cons j js ih =>
    intro init i hnd hi hlt hinj
    rw [List.foldl_cons]
    rcases List.mem_cons.mp hi with rfl | hi2
    · have hnotin : i ∉ js := (List.nodup_cons.mp hnd).1
      have hne : ∀ x ∈ js, idx x ≠ idx i := by
        intro x hx hidx
        have hxi := hinj x (List.mem_cons_of_mem _ hx) hidx
        exact hnotin (hxi ▸ hx)
      rw [foldl_set_getD_notmem idx val js _ (idx i) hne]
      rw [List.getD_eq_getElem?_getD, List.getElem?_set_self hlt]
      rfl
    · refine ih _ i (List.nodup_cons.mp hnd).2 hi2 ?hl ?hinj2
      · rw [List.length_set]; exact hlt
      · intro x hx hidx
        exact hinj x (List.mem_cons_of_mem _ hx) hidx

theorem alphabetWithKey_getD_bounds {key : ByteStr} (h : CipherEncoder.keyValidation key = true)
    {i : Nat} (hi : i < 26) :
    65 ≤ (CipherEncoder.alphabetWithKey key).getD i 0 ∧
      (CipherEncoder.alphabetWithKey key).getD i 0 ≤ 90 := by
  have hperm := alphabetWithKey_perm (cipherKeyValidation_alpha h) (cipherKeyValidation_nodup h)
  have hlen : (CipherEncoder.alphabetWithKey key).length = 26 :=
    hperm.length_eq.trans plainAlphabet_length
  have hlt : i < (CipherEncoder.alphabetWithKey key).length := by omega
  rw [List.getD_eq_getElem _ 0 hlt]
  exact mem_plainAlphabet.mp (hperm.mem_iff.mp (List.getElem_mem hlt))

/-- C7: for every key accepted by the permutation-mode validator, the
keyed code table assigns to the i-th letter of the keyword-derived
ordering exactly the glyph run that the static table `CIPHER_ALPHABET`
assigns to the i-th letter of the plain alphabet; consequently the
keyed-permutation encoder encodes an alphabetic character `c` as
`CIPHER_ALPHABET[position of uppercase c in the ordering]`. -/
theorem c7_keyed_table (key : ByteStr) (h : CipherEncoder.keyValidation key = true) :
    (∀ i, i < 26 →
      (CipherEncoder.keyedCipherAlphabet (CipherEncoder.alphabetWithKey key)).getD
          ((CipherEncoder.alphabetWithKey key).getD i 0 - 65) [] =
        CipherEncoder.CIPHER_ALPHABET.getD i []) ∧
    (∀ c, cppIsalpha c = true →
      CipherEncoder.encrypt [c]
          (CipherEncoder.keyedCipherAlphabet (CipherEncoder.alphabetWithKey key)) =
        CipherEncoder.CIPHER_ALPHABET.getD
          (List.indexOf (cppToupper c) (CipherEncoder.alphabetWithKey key)) []) := by
  have hperm := alphabetWithKey_perm (cipherKeyValidation_alpha h) (cipherKeyValidation_nodup h)
  have hlen : (CipherEncoder.alphabetWithKey key).length = 26 :=
    hperm.length_eq.trans plainAlphabet_length
  have hnd : (CipherEncoder.alphabetWithKey key).Nodup :=
    hperm.nodup_iff.mpr plainAlphabet_nodup
  have hmain : ∀ i, i < 26 →
      (CipherEncoder.keyedCipherAlphabet (CipherEncoder.alphabetWithKey key)).getD
          ((CipherEncoder.alphabetWithKey key).getD i 0 - 65) [] =
        CipherEncoder.CIPHER_ALPHABET.getD i [] := by
    intro i hi
    have hbi := alphabetWithKey_getD_bounds h hi
    refine foldl_set_getD_mem
      (fun j => (CipherEncoder.alphabetWithKey key).getD j 0 - 65)
      (fun j => CipherEncoder.CIPHER_ALPHABET.getD j [])
      (List.range 26) (List.replicate 26 []) i
      (List.nodup_range 26) (List.mem_range.mpr hi) ?hl ?hinj
    · show (CipherEncoder.alphabetWithKey key).getD i 0 - 65 < (List.replicate 26 ([] : ByteStr)).length
      rw [List.length_replicate]
      omega
    · intro j hj hidx
      simp only [] at hidx
      have hj26 := List.mem_range.mp hj
      have hbj := alphabetWithKey_getD_bounds h hj26
      have heq : (CipherEncoder.alphabetWithKey key).getD j 0 =
          (CipherEncoder.alphabetWithKey key).getD i 0 := by omega
      rw [List.getD_eq_getElem _ 0 (by omega), List.getD_eq_getElem _ 0 (by omega)] at heq
      exact (hnd.getElem_inj_iff).mp heq
  refine ⟨hmain, fun c hc => ?enc⟩
  have hu : cppToupper c ∈ CipherEncoder.alphabetWithKey key :=
    hperm.mem_iff.mpr (upper_key_mem hc)
  have hidx : List.indexOf (cppToupper c) (CipherEncoder.alphabetWithKey key) <
      (CipherEncoder.alphabetWithKey key).length := List.indexOf_lt_length.mpr hu
  have hgot : (CipherEncoder.alphabetWithKey key).getD
      (List.indexOf (cppToupper c) (CipherEncoder.alphabetWithKey key)) 0 = cppToupper c := by
    rw [List.getD_eq_getElem _ 0 hidx]
    exact List.getElem_indexOf hidx
  have hpos := abcPosition_of_alpha hc
  have htoNat : (abcPosition c).toNat = cppToupper c - 65 := by
    rw [hpos.1]
    exact Int.toNat_natCast _
  have hstep := hmain (List.indexOf (cppToupper c) (CipherEncoder.alphabetWithKey key))
    (by omega)
  rw [hgot] at hstep
  simp only [CipherEncoder.encrypt, if_pos hc, List.append_nil, htoNat]
  exact hstep

/-- Witness for C7 at the key `"KEY"` (bytes 75, 69, 89): the ordering
starts with K, so slot K (index 10) of the keyed table holds the static
run of the letter A, and encrypting `"K"` yields
`CIPHER_ALPHABET[indexOf K] = CIPHER_ALPHABET[0]`. -/
theorem c7_keyed_table_witness :
    (CipherEncoder.keyedCipherAlphabet (CipherEncoder.alphabetWithKey [75, 69, 89])).getD
        ((CipherEncoder.alphabetWithKey [75, 69, 89]).getD 0 0 - 65) [] =
      CipherEncoder.CIPHER_ALPHABET.getD 0 [] :=
  (c7_keyed_table [75, 69, 89] (by decide)).1 0 (by decide)
